import Mathlib

/-!
Verification of the windowed tiling and value-mapping engine of
`gdal-dtm-exporter` (`src/gdal-dtm-exporter/lib/src/mod.rs`,
function `export_dtm_to_exr` and helper `map_range`).

The embedding below translates the Rust source into Lean:

* floating-point samples are modelled exactly: a value is either a finite
  rational or one of the IEEE special values NaN / +inf / -inf; arithmetic
  on finite values is exact, and the IEEE special cases that the program
  can actually hit (0/0 = NaN, x/0 = ±inf, NaN propagation) are modelled
  explicitly;
* `usize` arithmetic is `Nat` (the source never subtracts below zero on the
  paths modelled here, which the proofs make explicit);
* Rust panics of the tiling code (division by zero, `Iterator::step_by`
  with step 0) are modelled as `Except.error` values of a dedicated type,
  distinct from any error the specification names;
* the raster-read collaborator is a function giving the sample at each
  absolute pixel coordinate; `RasterBand::read_as` returns the row-major
  buffer of a window, per its contract;
* the output image is a total function from coordinates to RGB triples,
  zero-initialised like `Rgb32FImage::new`;
* the orchestration (directory creation, dataset opening, output-path
  computation, band loop, overwrite prompt, save) is modelled as a trace
  of events in the exact order of the source, with path strings as lists
  of characters.
-/

/-- Exact model of a floating-point value: a finite rational, NaN, or a
signed infinity.  Arithmetic on finite values is exact (no rounding). -/
inductive RFloat where
  | fin (q : ℚ)
  | nan
  | inf
  | ninf
deriving DecidableEq

namespace RFloat

/-- Addition: exact on finite values, NaN-propagating. -/
def add : RFloat → RFloat → RFloat
  | fin a, fin b => fin (a + b)
  | nan, _ => nan
  | _, nan => nan
  | inf, ninf => nan
  | ninf, inf => nan
  | inf, _ => inf
  | _, inf => inf
  | ninf, _ => ninf
  | _, ninf => ninf

/-- Subtraction: exact on finite values, NaN-propagating. -/
def sub : RFloat → RFloat → RFloat
  | fin a, fin b => fin (a - b)
  | nan, _ => nan
  | _, nan => nan
  | inf, inf => nan
  | ninf, ninf => nan
  | inf, _ => inf
  | _, inf => ninf
  | ninf, _ => ninf
  | _, ninf => inf

/-- Multiplication: exact on finite values; `0 * inf = NaN` as in IEEE 754. -/
def mul : RFloat → RFloat → RFloat
  | fin a, fin b => fin (a * b)
  | nan, _ => nan
  | _, nan => nan
  | inf, fin b => if b = 0 then nan else if 0 < b then inf else ninf
  | fin a, inf => if a = 0 then nan else if 0 < a then inf else ninf
  | ninf, fin b => if b = 0 then nan else if 0 < b then ninf else inf
  | fin a, ninf => if a = 0 then nan else if 0 < a then ninf else inf
  | inf, inf => inf
  | inf, ninf => ninf
  | ninf, inf => ninf
  | ninf, ninf => inf

/-- Division, with the IEEE 754 special cases the program can hit:
`0 / 0 = NaN` and `x / 0 = ±inf` for finite nonzero `x`. -/
def div : RFloat → RFloat → RFloat
  | fin a, fin b =>
    if b = 0 then (if a = 0 then nan else if 0 < a then inf else ninf)
    else fin (a / b)
  | nan, _ => nan
  | _, nan => nan
  | inf, inf => nan
  | inf, ninf => nan
  | ninf, inf => nan
  | ninf, ninf => nan
  | inf, fin b => if 0 ≤ b then inf else ninf
  | ninf, fin b => if 0 ≤ b then ninf else inf
  | fin _, inf => fin 0
  | fin _, ninf => fin 0

end RFloat

instance : Add RFloat := ⟨RFloat.add⟩
instance : Sub RFloat := ⟨RFloat.sub⟩
instance : Mul RFloat := ⟨RFloat.mul⟩
instance : Div RFloat := ⟨RFloat.div⟩

/-- Embedding of `map_range` (mod.rs lines 11-16), the generic
range-remapping helper taken from Rosetta Code:
`to_range.0 + (s - from_range.0) * (to_range.1 - to_range.0) / (from_range.1 - from_range.0)`. -/
def map_range (from_range to_range : RFloat × RFloat) (s : RFloat) : RFloat :=
  to_range.1 + (s - from_range.1) * (to_range.2 - to_range.1) / (from_range.2 - from_range.1)

/-- Embedding of the `bw_color` computation (mod.rs lines 139-144): with
`normalize` the sample is remapped from `(stats.min, stats.max)` to
`(0.0, 1.0)` by `map_range`, otherwise it is passed through unchanged
(the `f64`/`f32` casts are the identity in the exact model). -/
def bwColor (normalize : Bool) (statsMin statsMax : RFloat) (value : RFloat) : RFloat :=
  match normalize with
  | true => map_range (statsMin, statsMax) (RFloat.fin 0, RFloat.fin 1) value
  | false => value

/-- An RGB pixel of the output image (three `f32` channels). -/
abbrev Rgb := RFloat × RFloat × RFloat

/-- The grayscale pixel the assembler writes for one sample
(mod.rs lines 146-150): the mapped value replicated in all channels. -/
def grayOf (normalize : Bool) (statsMin statsMax : RFloat) (value : RFloat) : Rgb :=
  let bw := bwColor normalize statsMin statsMax value
  (bw, bw, bw)

/-! ## Tiling (mod.rs lines 79-110) -/

/-- The offsets visited by `(0..dim).step_by step` for `step > 0`:
the multiples of `step` below `dim`. -/
def stepBy (dim step : ℕ) : List ℕ :=
  (List.range ((dim + step - 1) / step)).map (· * step)

/-- Embedding of the last-tile adjustment (mod.rs lines 99-110): the region
size read at `offset` is `dim - offset` when `offset >= dim - region_size`,
and `region_size` otherwise. -/
def regionToRead (dim region_size offset : ℕ) : ℕ :=
  if dim - region_size ≤ offset then dim - offset else region_size

/-- One read window of the raster: x/y offset of its upper-left corner and
the region-to-read width/height. -/
structure Tile where
  x_offset : ℕ
  y_offset : ℕ
  width : ℕ
  height : ℕ
deriving DecidableEq, Repr

/-- The segments of one axis: each loop offset paired with the region size
read there. -/
def segs (dim region_size : ℕ) : List (ℕ × ℕ) :=
  (stepBy dim region_size).map fun offset => (offset, regionToRead dim region_size offset)

/-- The read windows produced by the nested tiling loop of mod.rs lines
85-110: outer loop over `x_offset`, inner loop over `y_offset`, each using
base region size `dimension / window_scale_factor`. -/
def tileList (raster_w raster_h window_scale_factor : ℕ) : List Tile :=
  let region_size_w := raster_w / window_scale_factor
  let region_size_h := raster_h / window_scale_factor
  (stepBy raster_w region_size_w).flatMap fun x_offset =>
    (stepBy raster_h region_size_h).map fun y_offset =>
      { x_offset := x_offset
        y_offset := y_offset
        width := regionToRead raster_w region_size_w x_offset
        height := regionToRead raster_h region_size_h y_offset }

/-- The two Rust panics the tiling code can raise: `raster_w /
window_scale_factor` panics when the scale factor is 0, and
`Iterator::step_by` asserts its step is nonzero, so a zero region size
panics as soon as a loop is entered. -/
inductive PartitionPanic where
  | divByZero
  | stepByZero
deriving DecidableEq

/-- The tiling loop as the caller observes it: either the list of read
windows, or the panic the Rust code raises.  The scale factor 0 panics in
the division computing `region_size_w` (mod.rs line 79); a zero region
size panics in `step_by` (lines 85-86, reached because `region_size_w > 0`
forces `raster_w > 0`, so the outer loop body runs). -/
def partition (raster_w raster_h window_scale_factor : ℕ) :
    Except PartitionPanic (List Tile) :=
  if window_scale_factor = 0 then Except.error PartitionPanic.divByZero
  else if raster_w / window_scale_factor = 0 then Except.error PartitionPanic.stepByZero
  else if raster_h / window_scale_factor = 0 then Except.error PartitionPanic.stepByZero
  else Except.ok (tileList raster_w raster_h window_scale_factor)

/-- Decidable test that pixel column/row `p` lies in the segment `s`
(offset, size). -/
def inSeg (p : ℕ) (s : ℕ × ℕ) : Bool :=
  decide (s.1 ≤ p ∧ p < s.1 + s.2)

/-- Decidable test that the pixel `(px, py)` lies in the tile `t`. -/
def inTile (px py : ℕ) (t : Tile) : Bool :=
  inSeg px (t.x_offset, t.width) && inSeg py (t.y_offset, t.height)

/-! ## Image assembly (mod.rs lines 34 and 126-152) -/

/-- The output image buffer, indexed by `(x, y)` pixel coordinates. -/
abbrev Buffer := ℕ → ℕ → Rgb

/-- `Rgb32FImage::new` zero-initialises every pixel (mod.rs line 34). -/
def emptyBuffer : Buffer := fun _ _ => (RFloat.fin 0, RFloat.fin 0, RFloat.fin 0)

/-- `ImageBuffer::put_pixel` (mod.rs lines 146-150) as a pointwise update. -/
def putPixel (buf : Buffer) (x y : ℕ) (c : Rgb) : Buffer :=
  fun x2 y2 => if x2 = x ∧ y2 = y then c else buf x2 y2

/-- `slice::chunks n` for `n > 0`: split into consecutive pieces of `n`
elements, the last possibly shorter.  (Rust `chunks(0)` panics; the
program only calls it with a positive region width, which the theorems
establish, so the `n = 0` branch below is unreachable.) -/
def chunksGo (fuel n : ℕ) (l : List α) : List (List α) :=
  match fuel, l with
  | _, [] => []
  | 0, _ :: _ => []
  | fuel + 1, x :: xs =>
    if n = 0 then []
    else (x :: xs).take n :: chunksGo fuel n ((x :: xs).drop n)

/-- `slice::chunks n` for `n > 0`: split into consecutive pieces of `n`
elements, the last possibly shorter.  (Rust `chunks(0)` panics; the
program only calls it with a positive region width, which the theorems
establish, so the `n = 0` branch is unreachable.)  The list's length is
enough fuel because every step consumes at least one element. -/
def chunks (n : ℕ) (l : List α) : List (List α) :=
  chunksGo l.length n l

/-- Contract of `RasterBand::read_as` with `output_size = window_size`
(mod.rs lines 116-127): the row-major buffer of the window whose
upper-left corner is `window` and whose size is `windowSize`
(`(cols, rows)` order, as in the source), sampled from the band. -/
def readAs (sample : ℕ → ℕ → RFloat) (window windowSize : ℕ × ℕ) : List RFloat :=
  (List.range windowSize.2).flatMap fun j =>
    (List.range windowSize.1).map fun i => sample (window.1 + i) (window.2 + j)

/-- Embedding of the assembler loop (mod.rs lines 133-152): the read
buffer is split into row chunks of `region_to_read_w` samples; chunk `c`
lands on row `y_offset + c`, and sample `i` of a chunk lands on column
`x_offset + i`, written as a gray pixel through `bwColor`. -/
def writeTile (normalize : Bool) (statsMin statsMax : RFloat) (data : List RFloat)
    (x_offset y_offset region_to_read_w : ℕ) (buf : Buffer) : Buffer :=
  (chunks region_to_read_w data).enum.foldl
    (fun buf1 cChunk =>
      let y := y_offset + cChunk.1
      cChunk.2.enum.foldl
        (fun buf2 iValue =>
          let x := x_offset + iValue.1
          let bw := bwColor normalize statsMin statsMax iValue.2
          putPixel buf2 x y (bw, bw, bw))
        buf1)
    buf

/-- One band's pass of the export (mod.rs lines 79-154): the nested tiling
loop; every tile is read with `readAs` and written with `writeTile`. -/
def processBand (sample : ℕ → ℕ → RFloat) (statsMin statsMax : RFloat) (normalize : Bool)
    (raster_w raster_h window_scale_factor : ℕ) (buf : Buffer) : Buffer :=
  let region_size_w := raster_w / window_scale_factor
  let region_size_h := raster_h / window_scale_factor
  (stepBy raster_w region_size_w).foldl
    (fun bufx x_offset =>
      (stepBy raster_h region_size_h).foldl
        (fun bufy y_offset =>
          let region_to_read_w := regionToRead raster_w region_size_w x_offset
          let region_to_read_h := regionToRead raster_h region_size_h y_offset
          let rv := readAs sample (x_offset, y_offset) (region_to_read_w, region_to_read_h)
          writeTile normalize statsMin statsMax rv x_offset y_offset region_to_read_w bufy)
        bufx)
    buf

/-- The band loop of mod.rs line 59: bands `1..=num_bands` processed in
order into the one shared output buffer.  `raster b x y` is the sample of
band `b` at pixel `(x, y)`; `stats b` is the `(min, max)` pair the band
statistics collaborator returns for band `b` (mod.rs line 68). -/
def processBands (raster : ℕ → ℕ → ℕ → RFloat) (stats : ℕ → RFloat × RFloat)
    (normalize : Bool) (raster_w raster_h window_scale_factor num_bands : ℕ)
    (buf : Buffer) : Buffer :=
  ((List.range num_bands).map (· + 1)).foldl
    (fun b i =>
      processBand (raster i) (stats i).1 (stats i).2 normalize
        raster_w raster_h window_scale_factor b)
    buf

/-! ## Orchestration: output path and event trace
(mod.rs lines 25-42 and 157-181) -/

/-- The position of the last `.` in a file name, if any. -/
def lastDotIdx (name : List Char) : Option ℕ :=
  (List.range name.length).foldl
    (fun acc i => if name.getD i ' ' = '.' then some i else acc) none

/-- `Path::file_stem` restricted to a bare file name: everything before
the last `.`, except that a name with no `.`, a name whose only `.` is
its first character, and the name `..` are their own stem. -/
def rustFileStem (name : List Char) : List Char :=
  if name = ['.', '.'] then name
  else
    match lastDotIdx name with
    | none => name
    | some 0 => name
    | some i => name.take i

/-- `PathBuf::join` (Unix) for a file name that is relative and contains
no separator — which holds of every `file_stem`: the name is appended,
inserting a `/` unless the directory is empty or already ends with
one. -/
def pathJoin (dir name : List Char) : List Char :=
  if dir = [] then name
  else if dir.getLast? = some '/' then dir ++ name
  else dir ++ '/' :: name

/-- The segments of a Unix path between `/` separators (lossless: the
path is the segments interleaved with `/`). -/
def splitOnSlash : List Char → List (List Char)
  | [] => [[]]
  | c :: cs =>
    if c = '/' then [] :: splitOnSlash cs
    else
      match splitOnSlash cs with
      | [] => [[c]]
      | s :: ss => (c :: s) :: ss

/-- Whether a segment survives `Components` parsing as a real component:
empty segments and interior current-directory `.` segments are
skipped. -/
def segIsReal (s : List Char) : Bool :=
  decide (s ≠ [] ∧ s ≠ ['.'])

/-- The index of the last real segment of a path — the component
`Path::file_name` inspects — if any. -/
def lastRealIdx (segments : List (List Char)) : Option ℕ :=
  (List.range segments.length).foldl
    (fun acc i => if segIsReal (segments.getD i []) then some i else acc) none

/-- `Path::with_extension` (via `set_extension`): when the path has a
file stem, truncate the path right after the stem of its file name and
append `.` and the extension; when it has none (no real component, or a
final `..` component), `set_extension` returns `false` and the path is
unchanged.  The file name is the last real segment; truncating after its
stem discards any trailing separators and `.` segments together with the
rest of that segment. -/
def withExtension (p ext : List Char) : List Char :=
  let segments := splitOnSlash p
  match lastRealIdx segments with
  | none => p
  | some k =>
    let fname := segments.getD k []
    if fname = ['.', '.'] then p
    else
      let trunc :=
        if k = 0 then rustFileStem fname
        else List.intercalate ['/'] (segments.take k) ++ '/' :: rustFileStem fname
      if ext = [] then trunc else trunc ++ '.' :: ext

/-- The output image path of mod.rs lines 35-42:
`export_dir.join(in_image_path.file_stem()).with_extension("exr")`,
given the input path's file stem. -/
def outputImagePath (export_dir stem : List Char) : List Char :=
  withExtension (pathJoin export_dir stem) ['e', 'x', 'r']

/-- `str::strip_suffix "\n"` folded with the `match` of mod.rs lines
168-171: drop one trailing newline if present, else keep the string. -/
def stripNewlineSuffix (answer : List Char) : List Char :=
  match answer.getLast? with
  | some c => if c = '\n' then answer.dropLast else answer
  | none => answer

/-- The externally observable steps of `export_dtm_to_exr`, in source
order. -/
inductive Event where
  | createDir
  | openDataset
  | computeOutputPath
  | bandProcessed (i : ℕ)
  | promptUser
  | readUserInput
  | saveImage
deriving DecidableEq, Repr

/-- The terminal errors of `export_dtm_to_exr` modelled here. -/
inductive ExportError where
  | noFileStem
  | userAborted
deriving DecidableEq, Repr

/-- The inputs of `export_dtm_to_exr` that determine its control flow:
the input path's file stem (`none` when the path has none), the export
directory, the dataset's band count, the two flags, whether the output
path already exists, and the line read from stdin at the prompt. -/
structure ExportParams where
  fileStem : Option (List Char)
  exportDir : List Char
  numBands : ℕ
  forceOverwrite : Bool
  outputExists : Bool
  userAnswer : List Char
deriving DecidableEq

/-- The trace of the band loop: one event per band `1..=num_bands`. -/
def bandLoopTrace (num_bands : ℕ) : List Event :=
  ((List.range num_bands).map (· + 1)).map Event.bandProcessed

/-- Embedding of the control flow of `export_dtm_to_exr` (mod.rs lines
18-181) as the trace of events it performs together with its result:
directory creation and dataset opening (lines 25-29), output path
computed from the file stem — failing when there is none (lines 34-42) —
then the band loop (lines 59-155), then, only when `force_overwrite` is
unset and the output exists, the overwrite prompt and the blocking stdin
read (lines 160-175), aborting on an answer of `n` or `no`, and finally
the save (line 178), returning the output path (line 180). -/
def exportDtmToExr (p : ExportParams) : List Event × Except ExportError (List Char) :=
  match p.fileStem with
  | none =>
    ([Event.createDir, Event.openDataset], Except.error ExportError.noFileStem)
  | some stem =>
    let outPath := outputImagePath p.exportDir stem
    let preTrace := [Event.createDir, Event.openDataset, Event.computeOutputPath]
    let bands := bandLoopTrace p.numBands
    if !p.forceOverwrite && p.outputExists then
      let answer := stripNewlineSuffix p.userAnswer
      if answer = ['n'] ∨ answer = ['n', 'o'] then
        (preTrace ++ bands ++ [Event.promptUser, Event.readUserInput],
          Except.error ExportError.userAborted)
      else
        (preTrace ++ bands ++ [Event.promptUser, Event.readUserInput, Event.saveImage],
          Except.ok outPath)
    else
      (preTrace ++ bands ++ [Event.saveImage], Except.ok outPath)

/-- Whether an `Except` value is an error. -/
def exceptIsError : Except ε α → Bool
  | Except.error _ => true
  | Except.ok _ => false

/-! ## Arithmetic facts about the step count `(dim + rs - 1) / rs`,
the number of offsets `(0..dim).step_by rs` visits. -/

theorem stepCount_pos (dim rs : ℕ) (hrs : 0 < rs) (hdim : 0 < dim) :
    1 ≤ (dim + rs - 1) / rs :=
  (Nat.le_div_iff_mul_le hrs).mpr (by omega)

theorem stepCount_mul_ge (dim rs : ℕ) (hrs : 0 < rs) :
    dim ≤ ((dim + rs - 1) / rs) * rs := by
  have hdm := Nat.div_add_mod (dim + rs - 1) rs
  have hml : (dim + rs - 1) % rs < rs := Nat.mod_lt _ hrs
  have h1 : ((dim + rs - 1) / rs) * rs = rs * ((dim + rs - 1) / rs) := Nat.mul_comm _ _
  omega

theorem stepCount_pred_mul_lt (dim rs : ℕ) (hrs : 0 < rs) (hdim : 0 < dim) :
    (((dim + rs - 1) / rs) - 1) * rs < dim := by
  have hdm := Nat.div_add_mod (dim + rs - 1) rs
  have hml : (dim + rs - 1) % rs < rs := Nat.mod_lt _ hrs
  have h2 : (((dim + rs - 1) / rs) - 1) * rs = ((dim + rs - 1) / rs) * rs - rs := by
    rw [Nat.sub_mul, Nat.one_mul]
  have h1 : ((dim + rs - 1) / rs) * rs = rs * ((dim + rs - 1) / rs) := Nat.mul_comm _ _
  omega

/-! ## Exact coverage of one axis by the loop's segments -/

/-- A pixel column `p` lies in the segment of loop step `k` exactly when
`k` is the unique index `min (p / rs) (steps - 1)`: the last step absorbs
the remainder, every other step has the base size. -/
theorem seg_pred_iff (dim rs p k : ℕ) (hrs : 0 < rs) (hle : rs ≤ dim) (hp : p < dim)
    (hk : k < (dim + rs - 1) / rs) :
    (inSeg p (k * rs, regionToRead dim rs (k * rs)) = true) ↔
      k = min (p / rs) ((dim + rs - 1) / rs - 1) := by
  have hdim : 0 < dim := Nat.lt_of_le_of_lt (Nat.zero_le p) hp
  have F1 := stepCount_mul_ge dim rs hrs
  have F2 := stepCount_pred_mul_lt dim rs hrs hdim
  have F3 := stepCount_pos dim rs hrs hdim
  have F4 := Nat.div_add_mod p rs
  have F5 : p % rs < rs := Nat.mod_lt _ hrs
  simp only [inSeg, regionToRead, decide_eq_true_eq]
  rcases Nat.lt_or_ge k ((dim + rs - 1) / rs - 1) with hklt | hkge
  · -- k strictly before the last step: the segment has the base size rs
    have hmono : (k + 1) * rs ≤ ((dim + rs - 1) / rs - 1) * rs :=
      Nat.mul_le_mul_right rs (by omega)
    have hsucc : (k + 1) * rs = k * rs + rs := by
      rw [Nat.add_mul, Nat.one_mul]
    have hcond : ¬ (dim - rs ≤ k * rs) := by omega
    rw [if_neg hcond]
    constructor
    · rintro ⟨hlo, hhi⟩
      have hq : p / rs = k := Nat.div_eq_of_lt_le hlo (by omega)
      omega
    · intro hk2
      have hq : p / rs = k := by omega
      have g1 : k * rs ≤ p := by
        have hg := Nat.div_mul_le_self p rs
        rw [hq] at hg
        exact hg
      have g2 : p < k * rs + rs := by
        have h6 : rs * (p / rs) = rs * k := by rw [hq]
        have h7 : rs * k = k * rs := Nat.mul_comm _ _
        omega
      exact ⟨g1, g2⟩
  · -- k is the last step: the segment runs to the end of the axis
    have hkeq : k = (dim + rs - 1) / rs - 1 := by omega
    subst hkeq
    have hup : ((dim + rs - 1) / rs - 1) * rs + rs = ((dim + rs - 1) / rs) * rs := by
      have ho : (dim + rs - 1) / rs - 1 + 1 = (dim + rs - 1) / rs := by omega
      calc ((dim + rs - 1) / rs - 1) * rs + rs
          = ((dim + rs - 1) / rs - 1 + 1) * rs := by rw [Nat.add_mul, Nat.one_mul]
        _ = ((dim + rs - 1) / rs) * rs := by rw [ho]
    have hcond : dim - rs ≤ ((dim + rs - 1) / rs - 1) * rs := by omega
    rw [if_pos hcond]
    have hiff : ((dim + rs - 1) / rs - 1) ≤ p / rs ↔
        ((dim + rs - 1) / rs - 1) * rs ≤ p := Nat.le_div_iff_mul_le hrs
    constructor
    · rintro ⟨hlo, _⟩
      have := hiff.mpr hlo
      omega
    · intro hk2
      have hlo : ((dim + rs - 1) / rs - 1) * rs ≤ p := hiff.mp (by omega)
      exact ⟨hlo, by omega⟩

/-- A list `range n` counts exactly one element satisfying a predicate
that holds at `k < n` and nowhere else. -/
theorem countP_range_eq_one : ∀ (n : ℕ) (p : ℕ → Bool) (k : ℕ), k < n → p k = true →
    (∀ j, j < n → p j = true → j = k) → (List.range n).countP p = 1 := by
  intro n
  induction n with
  | zero => intro p k hk hpk hu; exact absurd hk (by omega)
  | succ m ih =>
    intro p k hk hpk hu
    rw [List.range_succ, List.countP_append]
    rcases Nat.lt_or_ge k m with hkm | hkm
    · have hpm : p m = false := by
        cases hpmv : p m with
        | false => rfl
        | true => have := hu m (by omega) hpmv; omega
      rw [ih p k hkm hpk (fun j hj hpj => hu j (by omega) hpj)]
      simp [List.countP_cons, List.countP_nil, hpm]
    · have hkm2 : k = m := by omega
      subst hkm2
      have hzero : (List.range k).countP p = 0 := by
        rw [List.countP_eq_zero]
        intro a ha hpa
        rw [List.mem_range] at ha
        have := hu a (by omega) hpa
        omega
      rw [hzero]
      simp [List.countP_cons, List.countP_nil, hpk]

/-- Every pixel column `p < dim` lies in exactly one segment of the axis
partition, provided the base size is positive and at most the axis. -/
theorem segs_countP_eq_one (dim rs p : ℕ) (hrs : 0 < rs) (hle : rs ≤ dim) (hp : p < dim) :
    (segs dim rs).countP (inSeg p) = 1 := by
  have hdim : 0 < dim := Nat.lt_of_le_of_lt (Nat.zero_le p) hp
  have F3 := stepCount_pos dim rs hrs hdim
  simp only [segs, stepBy, List.countP_map]
  apply countP_range_eq_one _ _ (min (p / rs) ((dim + rs - 1) / rs - 1)) (by omega)
  · have hmem := (seg_pred_iff dim rs p (min (p / rs) ((dim + rs - 1) / rs - 1))
      hrs hle hp (by omega)).mpr rfl
    simpa [Function.comp] using hmem
  · intro j hj hpj
    exact (seg_pred_iff dim rs p j hrs hle hp hj).mp (by simpa [Function.comp] using hpj)

/-- Counting pairs: in the flattened grid built from two axes, the number
of entries satisfying a conjunction of per-axis predicates is the product
of the per-axis counts. -/
theorem countP_flatMap_pair {α β γ : Type} (xs : List α) (ys : List β) (g : α → β → γ)
    (r : γ → Bool) (p : α → Bool) (q : β → Bool)
    (hr : ∀ a b, r (g a b) = (p a && q b)) :
    (xs.flatMap fun a => ys.map fun b => g a b).countP r = xs.countP p * ys.countP q := by
  induction xs with
  | nil => simp
  | cons a xs ih =>
    rw [List.flatMap_cons, List.countP_append, ih, List.countP_cons, List.countP_map]
    have hcomp : (r ∘ fun b => g a b) = fun b => p a && q b := funext fun b => hr a b
    rw [hcomp]
    cases hpa : p a with
    | true =>
      simp only [hpa, Bool.true_and, if_pos]
      ring
    | false =>
      simp only [hpa, Bool.false_and]
      simp [List.countP_false, Function.const]

/-- Every pixel of the raster rectangle lies in exactly one tile of the
tiling loop's grid. -/
theorem tileList_countP (w h sf : ℕ) (hw : 0 < w) (hh : 0 < h) (h1 : 1 ≤ sf)
    (hsw : sf ≤ w) (hsh : sf ≤ h) (px py : ℕ) (hpx : px < w) (hpy : py < h) :
    (tileList w h sf).countP (inTile px py) = 1 := by
  have hrw : 0 < w / sf := Nat.div_pos hsw (by omega)
  have hrh : 0 < h / sf := Nat.div_pos hsh (by omega)
  have hrw2 : w / sf ≤ w := Nat.div_le_self w sf
  have hrh2 : h / sf ≤ h := Nat.div_le_self h sf
  have key : (tileList w h sf).countP (inTile px py) =
      ((stepBy w (w / sf)).countP fun x0 => inSeg px (x0, regionToRead w (w / sf) x0)) *
      ((stepBy h (h / sf)).countP fun y0 => inSeg py (y0, regionToRead h (h / sf) y0)) :=
    countP_flatMap_pair (stepBy w (w / sf)) (stepBy h (h / sf))
      (fun x0 y0 => Tile.mk x0 y0 (regionToRead w (w / sf) x0) (regionToRead h (h / sf) y0))
      (inTile px py) _ _ (fun _ _ => rfl)
  have hx : ((stepBy w (w / sf)).countP fun x0 =>
      inSeg px (x0, regionToRead w (w / sf) x0)) = 1 := by
    have hc := segs_countP_eq_one w (w / sf) px hrw hrw2 hpx
    simpa [segs, List.countP_map, Function.comp] using hc
  have hy : ((stepBy h (h / sf)).countP fun y0 =>
      inSeg py (y0, regionToRead h (h / sf) y0)) = 1 := by
    have hc := segs_countP_eq_one h (h / sf) py hrh hrh2 hpy
    simpa [segs, List.countP_map, Function.comp] using hc
  rw [key, hx, hy]

/-- The partitioner succeeds exactly on the inputs of the coverage claim. -/
theorem partition_ok (w h sf : ℕ) (h1 : 1 ≤ sf) (hsw : sf ≤ w) (hsh : sf ≤ h) :
    partition w h sf = Except.ok (tileList w h sf) := by
  have hrw : 0 < w / sf := Nat.div_pos hsw (by omega)
  have hrh : 0 < h / sf := Nat.div_pos hsh (by omega)
  simp only [partition]
  rw [if_neg (by omega), if_neg (by omega), if_neg (by omega)]

/-- Every segment of an axis stays inside the axis. -/
theorem seg_mem_bound (dim rs o : ℕ) (hrs : 0 < rs) (hdim : 0 < dim)
    (hmem : o ∈ stepBy dim rs) : o + regionToRead dim rs o ≤ dim := by
  simp only [stepBy, List.mem_map, List.mem_range] at hmem
  obtain ⟨k, hk, rfl⟩ := hmem
  have F2 := stepCount_pred_mul_lt dim rs hrs hdim
  have hmono : k * rs ≤ ((dim + rs - 1) / rs - 1) * rs :=
    Nat.mul_le_mul_right rs (by omega)
  simp only [regionToRead]
  split
  · omega
  · omega

/-- C1: for every raster width `w > 0`, height `h > 0` and scale factor in
`[1, min w h]`, the tiling loop succeeds and the set of read windows it
produces covers the rectangle `[0,w) × [0,h)` exactly once: every pixel
coordinate lies in exactly one window (no gaps, no overlaps). -/
theorem claim_C1_tiling_exact_cover (w h sf : ℕ) (hw : 0 < w) (hh : 0 < h)
    (h1 : 1 ≤ sf) (h2 : sf ≤ min w h) :
    partition w h sf = Except.ok (tileList w h sf) ∧
    ∀ px py, px < w → py < h → (tileList w h sf).countP (inTile px py) = 1 := by
  have hsw : sf ≤ w := le_trans h2 (min_le_left _ _)
  have hsh : sf ≤ h := le_trans h2 (min_le_right _ _)
  exact ⟨partition_ok w h sf h1 hsw hsh,
    fun px py hpx hpy => tileList_countP w h sf hw hh h1 hsw hsh px py hpx hpy⟩

/-- Witness for C1 at the concrete raster 105 x 100 with scale factor 10. -/
theorem claim_C1_witness :
    partition 105 100 10 = Except.ok (tileList 105 100 10) ∧
    (tileList 105 100 10).countP (inTile 104 99) = 1 :=
  ⟨(claim_C1_tiling_exact_cover 105 100 10 (by omega) (by omega) (by omega) (by decide)).1,
   (claim_C1_tiling_exact_cover 105 100 10 (by omega) (by omega) (by omega) (by decide)).2
     104 99 (by omega) (by omega)⟩

/-- C2 (counterexample): for width 105, height 100, scale factor 10, the
base tile width is 10, but the last column tile is `(100, 90, 5, 10)` —
its width is `105 - 100 = 5`, not 15, and no tile of the grid has width
15: the loop keeps stepping by 10 and emits an extra narrow column
instead of widening the previous one. -/
theorem claim_C2_counterexample :
    (105 : ℕ) / 10 = 10 ∧
    (tileList 105 100 10).getLast? = some ⟨100, 90, 5, 10⟩ ∧
    (¬ ∃ t ∈ tileList 105 100 10, t.width = 15) := by decide

/-- C2 (amended): for raster width 105, height 100 and scale factor 10 the
partitioning uses base tile width 10, and the tile at the last x offset
(100) takes width `dimension - offset = 5`; the column segments still
cover the full width `[0, 105)` exactly once, with no gap. -/
theorem claim_C2_amended :
    (105 : ℕ) / 10 = 10 ∧
    (∀ t ∈ tileList 105 100 10, t.x_offset = 100 → t.width = 5) ∧
    (∃ t ∈ tileList 105 100 10, t.x_offset = 100) ∧
    (∀ px, px < 105 → (segs 105 10).countP (inSeg px) = 1) := by
  refine ⟨by norm_num, by decide, by decide, ?_⟩
  intro px hpx
  exact segs_countP_eq_one 105 10 px (by omega) (by omega) hpx

/-- Witness for the amended C2 at pixel column 104. -/
theorem claim_C2_witness :
    (105 : ℕ) / 10 = 10 ∧ (segs 105 10).countP (inSeg 104) = 1 :=
  ⟨claim_C2_amended.1, claim_C2_amended.2.2.2 104 (by omega)⟩

/-- C3 (code bug): the code never returns `InvalidScaleFactor` or
`DegenerateTileSize` errors — there are no such error paths.  A scale
factor of 0 panics in the integer division `raster_w /
window_scale_factor` (mod.rs line 79), and a scale factor larger than the
dimension makes the base region size 0, which panics in
`Range::step_by` (line 85); neither panic is an error returned to the
caller. -/
theorem claim_C3_panics :
    (∀ w h, partition w h 0 = Except.error PartitionPanic.divByZero) ∧
    partition 10 10 11 = Except.error PartitionPanic.stepByZero :=
  ⟨fun _ _ => rfl, rfl⟩

/-- C8: every pixel write of the assembler lands strictly inside the
`w x h` output buffer: for every tile of the partitioner and every local
position `(i, j)` inside it, the absolute coordinate
`(x_offset + i, y_offset + j)` is in bounds. -/
theorem claim_C8_writes_in_bounds (w h sf : ℕ) (tiles : List Tile)
    (hok : partition w h sf = Except.ok tiles) (t : Tile) (ht : t ∈ tiles)
    (i j : ℕ) (hi : i < t.width) (hj : j < t.height) :
    t.x_offset + i < w ∧ t.y_offset + j < h := by
  have hsf : sf ≠ 0 := by intro h0; simp [partition, h0] at hok
  have hrw : w / sf ≠ 0 := by intro h0; simp [partition, hsf, h0] at hok
  have hrh : h / sf ≠ 0 := by intro h0; simp [partition, hsf, hrw, h0] at hok
  have htl : tiles = tileList w h sf := by
    simp [partition, hsf, hrw, hrh] at hok
    exact hok.symm
  subst htl
  simp only [tileList, List.mem_flatMap, List.mem_map] at ht
  obtain ⟨x0, hx0, y0, hy0, rfl⟩ := ht
  have hsw : sf ≤ w := by
    by_contra hlt
    exact hrw (Nat.div_eq_of_lt (by omega))
  have hsh : sf ≤ h := by
    by_contra hlt
    exact hrh (Nat.div_eq_of_lt (by omega))
  have hwpos : 0 < w := by omega
  have hhpos : 0 < h := by omega
  have bx := seg_mem_bound w (w / sf) x0 (Nat.pos_of_ne_zero hrw) hwpos hx0
  have hby := seg_mem_bound h (h / sf) y0 (Nat.pos_of_ne_zero hrh) hhpos hy0
  have hi2 : i < regionToRead w (w / sf) x0 := hi
  have hj2 : j < regionToRead h (h / sf) y0 := hj
  constructor
  · show x0 + i < w
    omega
  · show y0 + j < h
    omega

/-- Witness for C8 on the 4 x 4 raster with scale factor 2, at the tile
`(2, 2, 2, 2)` and local position `(1, 1)`. -/
theorem claim_C8_witness :
    (⟨2, 2, 2, 2⟩ : Tile).x_offset + 1 < 4 ∧ (⟨2, 2, 2, 2⟩ : Tile).y_offset + 1 < 4 :=
  claim_C8_writes_in_bounds 4 4 2 (tileList 4 4 2) rfl ⟨2, 2, 2, 2⟩ (by decide)
    1 1 (by decide) (by decide)

/-! ## The value mapper -/

theorem rfloat_add_fin (a b : ℚ) : RFloat.fin a + RFloat.fin b = RFloat.fin (a + b) := rfl

theorem rfloat_sub_fin (a b : ℚ) : RFloat.fin a - RFloat.fin b = RFloat.fin (a - b) := rfl

theorem rfloat_mul_fin (a b : ℚ) : RFloat.fin a * RFloat.fin b = RFloat.fin (a * b) := rfl

theorem rfloat_div_fin (a b : ℚ) (hb : b ≠ 0) :
    RFloat.fin a / RFloat.fin b = RFloat.fin (a / b) := by
  show RFloat.div (RFloat.fin a) (RFloat.fin b) = RFloat.fin (a / b)
  simp [RFloat.div, hb]

theorem rfloat_zero_div_zero : RFloat.fin 0 / RFloat.fin 0 = RFloat.nan := by
  show RFloat.div (RFloat.fin 0) (RFloat.fin 0) = RFloat.nan
  simp [RFloat.div]

/-- C4 (code bug): when the band statistics are degenerate (`min == max`)
and `normalize` is on, the value mapper computes
`0 + (s - min) * (1 - 0) / (max - min) = 0 / 0`, which is NaN — it
neither fails with a `DegenerateBandRange` error (no such error exists in
the code) nor emits a fixed fallback value. -/
theorem claim_C4_nan_on_degenerate_range :
    bwColor true (RFloat.fin 5) (RFloat.fin 5) (RFloat.fin 5) = RFloat.nan := by
  show map_range (RFloat.fin 5, RFloat.fin 5) (RFloat.fin 0, RFloat.fin 1) (RFloat.fin 5)
      = RFloat.nan
  simp only [map_range]
  rw [rfloat_sub_fin, rfloat_sub_fin, rfloat_mul_fin]
  have h1 : (5 : ℚ) - 5 = 0 := by norm_num
  have h2 : ((5 : ℚ) - 5) * (1 - 0) = 0 := by norm_num
  rw [h2, h1, rfloat_zero_div_zero]
  rfl

/-- C6: with `normalize` on and statistics satisfying `min < max`, the
mapper computes exactly `(s - min) / (max - min)`; it maps `min` to 0,
`max` to 1, and every sample between them into `[0, 1]`. -/
theorem claim_C6_normalization (mn mx s : ℚ) (h1 : mn < mx) (h2 : mn ≤ s) (h3 : s ≤ mx) :
    bwColor true (RFloat.fin mn) (RFloat.fin mx) (RFloat.fin s)
      = RFloat.fin ((s - mn) / (mx - mn)) ∧
    0 ≤ (s - mn) / (mx - mn) ∧ (s - mn) / (mx - mn) ≤ 1 ∧
    (s = mn → bwColor true (RFloat.fin mn) (RFloat.fin mx) (RFloat.fin s) = RFloat.fin 0) ∧
    (s = mx → bwColor true (RFloat.fin mn) (RFloat.fin mx) (RFloat.fin s) = RFloat.fin 1) := by
  have hd : (0 : ℚ) < mx - mn := by linarith
  have hne : mx - mn ≠ 0 := ne_of_gt hd
  have heq : bwColor true (RFloat.fin mn) (RFloat.fin mx) (RFloat.fin s)
      = RFloat.fin ((s - mn) / (mx - mn)) := by
    show map_range (RFloat.fin mn, RFloat.fin mx) (RFloat.fin 0, RFloat.fin 1) (RFloat.fin s)
        = RFloat.fin ((s - mn) / (mx - mn))
    simp only [map_range]
    rw [rfloat_sub_fin, rfloat_sub_fin, rfloat_sub_fin, rfloat_mul_fin,
      rfloat_div_fin _ _ hne, rfloat_add_fin]
    have harith : (0 : ℚ) + (s - mn) * (1 - 0) / (mx - mn) = (s - mn) / (mx - mn) := by
      ring
    rw [harith]
  refine ⟨heq, div_nonneg (by linarith) (le_of_lt hd), (div_le_one hd).mpr (by linarith),
    ?_, ?_⟩
  · intro hs
    rw [heq, hs]
    norm_num
  · intro hs
    rw [heq, hs, div_self hne]

/-- Witness for C6 with statistics `min = 0`, `max = 2` and sample 1. -/
theorem claim_C6_witness :
    bwColor true (RFloat.fin 0) (RFloat.fin 2) (RFloat.fin 1)
      = RFloat.fin ((1 - 0) / (2 - 0)) ∧
    0 ≤ ((1 : ℚ) - 0) / (2 - 0) ∧ ((1 : ℚ) - 0) / (2 - 0) ≤ 1 ∧
    ((1 : ℚ) = 0 → bwColor true (RFloat.fin 0) (RFloat.fin 2) (RFloat.fin 1) = RFloat.fin 0) ∧
    ((1 : ℚ) = 2 → bwColor true (RFloat.fin 0) (RFloat.fin 2) (RFloat.fin 1) = RFloat.fin 1) :=
  claim_C6_normalization 0 2 1 (by norm_num) (by norm_num) (by norm_num)

/-- C7: with `normalize` off, the mapper is the identity on every sample:
the written intensity is the sample itself (the `f32` cast is the
identity in the exact value model). -/
theorem claim_C7_passthrough (statsMin statsMax v : RFloat) :
    bwColor false statsMin statsMax v = v := rfl

/-! ## Evaluating the assembler: from folds over chunks to per-pixel values -/

theorem chunksGo_fuel_inv {α : Type} : ∀ (fuel1 fuel2 n : ℕ) (l : List α),
    l.length ≤ fuel1 → l.length ≤ fuel2 → chunksGo fuel1 n l = chunksGo fuel2 n l := by
  intro fuel1
  induction fuel1 with
  | zero =>
    intro fuel2 n l h1 h2
    cases l with
    | nil => cases fuel2 <;> rfl
    | cons a as => simp at h1
  | succ f ih =>
    intro fuel2 n l h1 h2
    cases l with
    | nil => cases fuel2 <;> rfl
    | cons a as =>
      cases fuel2 with
      | zero => simp at h2
      | succ f2 =>
        simp only [chunksGo]
        by_cases hn : n = 0
        · simp [hn]
        · rw [if_neg hn, if_neg hn]
          congr 1
          apply ih
          · simp only [List.length_drop, List.length_cons]
            simp only [List.length_cons] at h1
            omega
          · simp only [List.length_drop, List.length_cons]
            simp only [List.length_cons] at h2
            omega

/-- Splitting one full row off a chunked buffer. -/
theorem chunks_cons_chunk {α : Type} (n : ℕ) (hn : 0 < n) (a rest : List α)
    (ha : a.length = n) : chunks n (a ++ rest) = a :: chunks n rest := by
  cases a with
  | nil => simp at ha; omega
  | cons x xs =>
    have htake : List.take n ((x :: xs) ++ rest) = x :: xs := by
      rw [← ha, List.take_left]
    have hdrop : List.drop n ((x :: xs) ++ rest) = rest := by
      rw [← ha, List.drop_left]
    show chunksGo ((x :: xs) ++ rest).length n ((x :: xs) ++ rest) = _
    rw [List.cons_append, List.length_cons]
    simp only [chunksGo]
    rw [if_neg (by omega)]
    rw [← List.cons_append, htake, hdrop]
    congr 1
    apply chunksGo_fuel_inv
    · simp only [List.length_append]
      omega
    · exact Nat.le_refl _

/-- A buffer assembled from rows of equal width `n` chunks back into
exactly those rows. -/
theorem chunks_flatMap_rows {α β : Type} (n : ℕ) (hn : 0 < n) (js : List β) (f : β → List α)
    (hf : ∀ j, (f j).length = n) : chunks n (js.flatMap f) = js.map f := by
  induction js with
  | nil => rfl
  | cons j js ih =>
    rw [List.flatMap_cons, chunks_cons_chunk n hn (f j) (js.flatMap f) (hf j), ih,
      List.map_cons]

theorem getD_map_range {γ : Type} (m i : ℕ) (f : ℕ → γ) (d : γ) (h : i < m) :
    ((List.range m).map f).getD i d = f i := by
  have hlen : i < ((List.range m).map f).length := by
    simp only [List.length_map, List.length_range]
    exact h
  rw [List.getD_eq_getElem _ _ hlen, List.getElem_map, List.getElem_range]

/-- Evaluating the inner loop of the assembler: folding the writes of one
row (mod.rs lines 136-151) updates exactly the pixels of that row's span
and leaves every other pixel unchanged. -/
theorem row_foldl_eval (norm : Bool) (mn mx : RFloat) (x0 y : ℕ) :
    ∀ (row : List RFloat) (k : ℕ) (buf : Buffer) (x2 y2 : ℕ),
    (List.foldl
      (fun buf2 iValue =>
        putPixel buf2 (x0 + iValue.1) y (grayOf norm mn mx iValue.2))
      buf (row.enumFrom k)) x2 y2
    = if y2 = y ∧ x0 + k ≤ x2 ∧ x2 < x0 + k + row.length
      then grayOf norm mn mx (row.getD (x2 - (x0 + k)) RFloat.nan)
      else buf x2 y2 := by
  intro row
  induction row with
  | nil =>
    intro k buf x2 y2
    rw [if_neg (by simp only [List.length_nil]; omega)]
    rfl
  | cons v row ih =>
    intro k buf x2 y2
    rw [List.enumFrom_cons, List.foldl_cons,
      ih (k + 1) (putPixel buf (x0 + k) y (grayOf norm mn mx v)) x2 y2]
    simp only [List.length_cons]
    by_cases hC1 : y2 = y ∧ x0 + (k + 1) ≤ x2 ∧ x2 < x0 + (k + 1) + row.length
    · rw [if_pos hC1, if_pos (by omega)]
      have hidx : x2 - (x0 + k) = (x2 - (x0 + (k + 1))) + 1 := by omega
      rw [hidx, List.getD_cons_succ]
    · rw [if_neg hC1]
      simp only [putPixel]
      by_cases hhit : x2 = x0 + k ∧ y2 = y
      · rw [if_pos hhit, if_pos (by omega)]
        have hidx : x2 - (x0 + k) = 0 := by omega
        rw [hidx, List.getD_cons_zero]
      · rw [if_neg hhit, if_neg (by omega)]

/-- Evaluating the outer loop of the assembler: folding the rows of one
tile writes exactly the tile's rectangle, each pixel getting the mapped
sample at its own absolute coordinate. -/
theorem rows_foldl_eval (norm : Bool) (mn mx : RFloat) (sample : ℕ → ℕ → RFloat)
    (x0 y0 rtw : ℕ) :
    ∀ (rth : ℕ) (buf : Buffer) (x2 y2 : ℕ),
    (List.foldl
      (fun buf1 cChunk =>
        List.foldl
          (fun buf2 iValue =>
            putPixel buf2 (x0 + iValue.1) (y0 + cChunk.1) (grayOf norm mn mx iValue.2))
          buf1 cChunk.2.enum)
      buf
      (((List.range rth).map fun j =>
        (List.range rtw).map fun i => sample (x0 + i) (y0 + j)).enum)) x2 y2
    = if x0 ≤ x2 ∧ x2 < x0 + rtw ∧ y0 ≤ y2 ∧ y2 < y0 + rth
      then grayOf norm mn mx (sample x2 y2)
      else buf x2 y2 := by
  intro rth
  induction rth with
  | zero =>
    intro buf x2 y2
    rw [if_neg (by omega)]
    rfl
  | succ m ih =>
    intro buf x2 y2
    rw [List.range_succ, List.map_append, List.enum_eq_enumFrom, List.enumFrom_append]
    simp only [List.length_map, List.length_range, List.map_cons, List.map_nil,
      List.enumFrom_cons, List.enumFrom_nil, List.foldl_append, List.foldl_cons,
      List.foldl_nil, Nat.zero_add]
    rw [List.enum_eq_enumFrom,
      row_foldl_eval norm mn mx x0 (y0 + m)
        ((List.range rtw).map fun i => sample (x0 + i) (y0 + m)) 0 _ x2 y2]
    simp only [List.length_map, List.length_range, Nat.add_zero]
    rw [← List.enum_eq_enumFrom, ih buf x2 y2]
    by_cases hA : y2 = y0 + m ∧ x0 ≤ x2 ∧ x2 < x0 + rtw
    · rw [if_pos hA, if_pos (by omega)]
      rw [getD_map_range rtw (x2 - x0) _ RFloat.nan (by omega)]
      have hx : x0 + (x2 - x0) = x2 := by omega
      rw [hx, ← hA.1]
    · rw [if_neg hA]
      by_cases hB : x0 ≤ x2 ∧ x2 < x0 + rtw ∧ y0 ≤ y2 ∧ y2 < y0 + m
      · rw [if_pos hB, if_pos (by omega)]
      · rw [if_neg hB, if_neg (by omega)]

/-- Per-pixel evaluation of `writeTile` on the buffer `read_as` returns:
inside the tile's rectangle the pixel becomes the mapped sample at its
absolute coordinate, outside it the buffer is untouched. -/
theorem writeTile_eval (norm : Bool) (mn mx : RFloat) (sample : ℕ → ℕ → RFloat)
    (x0 y0 rtw rth : ℕ) (hrtw : 0 < rtw) (buf : Buffer) (x2 y2 : ℕ) :
    writeTile norm mn mx (readAs sample (x0, y0) (rtw, rth)) x0 y0 rtw buf x2 y2
    = if x0 ≤ x2 ∧ x2 < x0 + rtw ∧ y0 ≤ y2 ∧ y2 < y0 + rth
      then grayOf norm mn mx (sample x2 y2)
      else buf x2 y2 := by
  have hchunks : chunks rtw (readAs sample (x0, y0) (rtw, rth))
      = (List.range rth).map fun j =>
          (List.range rtw).map fun i => sample (x0 + i) (y0 + j) :=
    chunks_flatMap_rows rtw hrtw (List.range rth) _ fun j => by
      simp only [List.length_map, List.length_range]
  have hstep : writeTile norm mn mx (readAs sample (x0, y0) (rtw, rth)) x0 y0 rtw buf
      = List.foldl
          (fun buf1 cChunk =>
            List.foldl
              (fun buf2 iValue =>
                putPixel buf2 (x0 + iValue.1) (y0 + cChunk.1) (grayOf norm mn mx iValue.2))
              buf1 cChunk.2.enum)
          buf ((chunks rtw (readAs sample (x0, y0) (rtw, rth))).enum) := rfl
  rw [hstep, hchunks]
  exact rows_foldl_eval norm mn mx sample x0 y0 rtw rth buf x2 y2

/-- The region to read at an offset the loop visits is always positive. -/
theorem regionToRead_pos (dim rs o : ℕ) (hrs : 0 < rs) (hdim : 0 < dim)
    (hm : o ∈ stepBy dim rs) : 0 < regionToRead dim rs o := by
  simp only [stepBy, List.mem_map, List.mem_range] at hm
  obtain ⟨k, hk, rfl⟩ := hm
  have F2 := stepCount_pred_mul_lt dim rs hrs hdim
  have hmono : k * rs ≤ ((dim + rs - 1) / rs - 1) * rs :=
    Nat.mul_le_mul_right rs (by omega)
  simp only [regionToRead]
  split <;> omega

/-- Every pixel column is covered by at least one loop segment. -/
theorem seg_exists (dim rs p : ℕ) (hrs : 0 < rs) (hle : rs ≤ dim) (hp : p < dim) :
    ∃ o ∈ stepBy dim rs, o ≤ p ∧ p < o + regionToRead dim rs o := by
  have hdim : 0 < dim := Nat.lt_of_le_of_lt (Nat.zero_le p) hp
  have F3 := stepCount_pos dim rs hrs hdim
  refine ⟨min (p / rs) ((dim + rs - 1) / rs - 1) * rs, ?_, ?_⟩
  · simp only [stepBy, List.mem_map, List.mem_range]
    exact ⟨min (p / rs) ((dim + rs - 1) / rs - 1), by omega, rfl⟩
  · have hmem := (seg_pred_iff dim rs p (min (p / rs) ((dim + rs - 1) / rs - 1))
      hrs hle hp (by omega)).mpr rfl
    simpa [inSeg, decide_eq_true_eq] using hmem

/-- Evaluating the y loop of the tiling for one x offset. -/
theorem yfold_eval (norm : Bool) (mn mx : RFloat) (sample : ℕ → ℕ → RFloat)
    (h rh x0 rtw : ℕ) (hrtw : 0 < rtw) :
    ∀ (ys : List ℕ) (buf : Buffer) (x2 y2 : ℕ),
    (List.foldl
      (fun bufy y0 =>
        writeTile norm mn mx (readAs sample (x0, y0) (rtw, regionToRead h rh y0))
          x0 y0 rtw bufy)
      buf ys) x2 y2
    = if x0 ≤ x2 ∧ x2 < x0 + rtw ∧ ∃ y0 ∈ ys, y0 ≤ y2 ∧ y2 < y0 + regionToRead h rh y0
      then grayOf norm mn mx (sample x2 y2)
      else buf x2 y2 := by
  intro ys
  induction ys with
  | nil =>
    intro buf x2 y2
    rw [if_neg]
    · rfl
    · rintro ⟨_, _, y0, hy0, _⟩
      exact absurd hy0 (List.not_mem_nil y0)
  | cons y0 ys ih =>
    intro buf x2 y2
    simp only [List.foldl_cons]
    rw [ih]
    rw [writeTile_eval norm mn mx sample x0 y0 rtw (regionToRead h rh y0) hrtw buf x2 y2]
    by_cases hA : x0 ≤ x2 ∧ x2 < x0 + rtw ∧
        ∃ y ∈ ys, y ≤ y2 ∧ y2 < y + regionToRead h rh y
    · rw [if_pos hA]
      obtain ⟨hx1, hx2, y, hy, hyr⟩ := hA
      rw [if_pos ⟨hx1, hx2, y, List.mem_cons_of_mem y0 hy, hyr⟩]
    · rw [if_neg hA]
      by_cases hB : x0 ≤ x2 ∧ x2 < x0 + rtw ∧ y0 ≤ y2 ∧ y2 < y0 + regionToRead h rh y0
      · rw [if_pos hB, if_pos ⟨hB.1, hB.2.1, y0, List.mem_cons_self y0 ys, hB.2.2⟩]
      · rw [if_neg hB, if_neg]
        rintro ⟨hx1, hx2, y, hy, hyr⟩
        rcases List.mem_cons.mp hy with rfl | hmem
        · exact hB ⟨hx1, hx2, hyr⟩
        · exact hA ⟨hx1, hx2, y, hmem, hyr⟩

/-- Evaluating the full nested tiling loop of one band. -/
theorem xfold_eval (norm : Bool) (mn mx : RFloat) (sample : ℕ → ℕ → RFloat)
    (w h rw rh : ℕ) :
    ∀ (xs : List ℕ), (∀ x0 ∈ xs, 0 < regionToRead w rw x0) →
    ∀ (buf : Buffer) (x2 y2 : ℕ),
    (List.foldl
      (fun bufx x0 =>
        List.foldl
          (fun bufy y0 =>
            writeTile norm mn mx
              (readAs sample (x0, y0) (regionToRead w rw x0, regionToRead h rh y0))
              x0 y0 (regionToRead w rw x0) bufy)
          bufx (stepBy h rh))
      buf xs) x2 y2
    = if (∃ x0 ∈ xs, x0 ≤ x2 ∧ x2 < x0 + regionToRead w rw x0) ∧
        (∃ y0 ∈ stepBy h rh, y0 ≤ y2 ∧ y2 < y0 + regionToRead h rh y0)
      then grayOf norm mn mx (sample x2 y2)
      else buf x2 y2 := by
  intro xs
  induction xs with
  | nil =>
    intro hpos buf x2 y2
    rw [if_neg]
    · rfl
    · rintro ⟨⟨x0, hx0, _⟩, _⟩
      exact absurd hx0 (List.not_mem_nil x0)
  | cons x0 xs ih =>
    intro hpos buf x2 y2
    simp only [List.foldl_cons]
    rw [ih (fun x hx => hpos x (List.mem_cons_of_mem x0 hx))]
    rw [yfold_eval norm mn mx sample h rh x0 (regionToRead w rw x0)
      (hpos x0 (List.mem_cons_self x0 xs)) (stepBy h rh) buf x2 y2]
    by_cases hA : (∃ x ∈ xs, x ≤ x2 ∧ x2 < x + regionToRead w rw x) ∧
        ∃ y ∈ stepBy h rh, y ≤ y2 ∧ y2 < y + regionToRead h rh y
    · rw [if_pos hA]
      obtain ⟨⟨x, hx, hxr⟩, hy⟩ := hA
      rw [if_pos ⟨⟨x, List.mem_cons_of_mem x0 hx, hxr⟩, hy⟩]
    · rw [if_neg hA]
      by_cases hB : x0 ≤ x2 ∧ x2 < x0 + regionToRead w rw x0 ∧
          ∃ y ∈ stepBy h rh, y ≤ y2 ∧ y2 < y + regionToRead h rh y
      · rw [if_pos hB, if_pos ⟨⟨x0, List.mem_cons_self x0 xs, hB.1, hB.2.1⟩, hB.2.2⟩]
      · rw [if_neg hB, if_neg]
        rintro ⟨⟨x, hx, hxr⟩, hy⟩
        rcases List.mem_cons.mp hx with rfl | hmem
        · exact hB ⟨hxr.1, hxr.2, hy⟩
        · exact hA ⟨⟨x, hmem, hxr⟩, hy⟩

/-- One band's pass writes every in-range pixel to the mapped sample of
that band at that coordinate, whatever the buffer held before. -/
theorem processBand_eval (sample : ℕ → ℕ → RFloat) (mn mx : RFloat) (norm : Bool)
    (w h sf : ℕ) (h1 : 1 ≤ sf) (hsw : sf ≤ w) (hsh : sf ≤ h)
    (buf : Buffer) (px py : ℕ) (hpx : px < w) (hpy : py < h) :
    processBand sample mn mx norm w h sf buf px py = grayOf norm mn mx (sample px py) := by
  have hwpos : 0 < w := by omega
  have hhpos : 0 < h := by omega
  have hrw : 0 < w / sf := Nat.div_pos hsw (by omega)
  have hrh : 0 < h / sf := Nat.div_pos hsh (by omega)
  have hkey := xfold_eval norm mn mx sample w h (w / sf) (h / sf) (stepBy w (w / sf))
    (fun x0 hx0 => regionToRead_pos w (w / sf) x0 hrw hwpos hx0) buf px py
  have hxe := seg_exists w (w / sf) px hrw (Nat.div_le_self w sf) hpx
  have hye := seg_exists h (h / sf) py hrh (Nat.div_le_self h sf) hpy
  calc processBand sample mn mx norm w h sf buf px py
      = if (∃ x0 ∈ stepBy w (w / sf), x0 ≤ px ∧ px < x0 + regionToRead w (w / sf) x0) ∧
          (∃ y0 ∈ stepBy h (h / sf), y0 ≤ py ∧ py < y0 + regionToRead h (h / sf) y0)
        then grayOf norm mn mx (sample px py)
        else buf px py := hkey
    _ = grayOf norm mn mx (sample px py) := if_pos ⟨hxe, hye⟩

/-- C5: after the band loop completes, every pixel of the output buffer
equals the mapped value of the last processed band at that coordinate —
each band's pass overwrites every pixel the previous band wrote, so the
final image reflects only band `num_bands`, not a composite, whatever
the buffer held initially. -/
theorem claim_C5_last_band_wins (raster : ℕ → ℕ → ℕ → RFloat)
    (stats : ℕ → RFloat × RFloat) (normalize : Bool) (w h sf nb : ℕ)
    (h1 : 1 ≤ sf) (h2 : sf ≤ min w h) (hnb : 1 ≤ nb) (buf : Buffer)
    (px py : ℕ) (hpx : px < w) (hpy : py < h) :
    processBands raster stats normalize w h sf nb buf px py
      = grayOf normalize (stats nb).1 (stats nb).2 (raster nb px py) := by
  have hsw : sf ≤ w := le_trans h2 (min_le_left _ _)
  have hsh : sf ≤ h := le_trans h2 (min_le_right _ _)
  obtain ⟨m, rfl⟩ : ∃ m, nb = m + 1 := ⟨nb - 1, by omega⟩
  simp only [processBands, List.range_succ, List.map_append, List.foldl_append,
    List.map_cons, List.map_nil, List.foldl_cons, List.foldl_nil]
  exact processBand_eval (raster (m + 1)) (stats (m + 1)).1 (stats (m + 1)).2 normalize
    w h sf h1 hsw hsh _ px py hpx hpy

/-- Witness for C5: the 2 x 2 two-band raster whose band 1 is 1.0
everywhere and band 2 is 2.0 everywhere; with `normalize` off, the final
pixel (1, 1) holds the value of band 2. -/
theorem claim_C5_witness :
    processBands (fun b _ _ => if b = 2 then RFloat.fin 2 else RFloat.fin 1)
      (fun _ => (RFloat.fin 0, RFloat.fin 2)) false 2 2 1 2 emptyBuffer 1 1
      = (RFloat.fin 2, RFloat.fin 2, RFloat.fin 2) :=
  claim_C5_last_band_wins (fun b _ _ => if b = 2 then RFloat.fin 2 else RFloat.fin 1)
    (fun _ => (RFloat.fin 0, RFloat.fin 2)) false 2 2 1 2 (by omega) (by decide) (by omega)
    emptyBuffer 1 1 (by omega) (by omega)

/-- C9 (counterexample): in the concrete run with one band, no force
overwrite, an existing output file and the answer `y`, the prompt and the
stdin read happen strictly after the band processing: the claim that the
prompt happens before the core band/tile processing is false on this
code. -/
theorem claim_C9_counterexample :
    ((exportDtmToExr ⟨some ['d','t','m'], ['o','u','t'], 1, false, true, ['y','\n']⟩).1
      = [Event.createDir, Event.openDataset, Event.computeOutputPath,
         Event.bandProcessed 1, Event.promptUser, Event.readUserInput, Event.saveImage]) ∧
    ¬ ((exportDtmToExr ⟨some ['d','t','m'], ['o','u','t'], 1, false, true, ['y','\n']⟩).1.findIdx
          (fun e => decide (e = Event.promptUser)) <
        (exportDtmToExr ⟨some ['d','t','m'], ['o','u','t'], 1, false, true, ['y','\n']⟩).1.findIdx
          (fun e => decide (e = Event.bandProcessed 1))) := by decide

/-- C9 (amended): in every execution, the trace splits into three
segments: a first segment containing all the band processing and no
prompt, stdin read or save; then a segment with no band processing and
no save, which is where any prompt and stdin read live; then a segment
with no band processing, prompt or stdin read, which is where any save
lives.  So the overwrite prompt and its blocking read of user input
happen after the whole band/tile loop and before the image save, and no
step inside the band loop or tile loop suspends pending external user
input. -/
theorem claim_C9_amended (p : ExportParams) :
    ∃ pre mid tail, (exportDtmToExr p).1 = pre ++ mid ++ tail ∧
      (∀ e ∈ pre, e ≠ Event.promptUser ∧ e ≠ Event.readUserInput ∧ e ≠ Event.saveImage) ∧
      (∀ b, Event.bandProcessed b ∉ mid ∧ Event.bandProcessed b ∉ tail) ∧
      (∀ e ∈ mid, e ≠ Event.saveImage) ∧
      (∀ e ∈ tail, e ≠ Event.promptUser ∧ e ≠ Event.readUserInput) := by
  obtain ⟨stem0, dir, nb, fo, oe, ua⟩ := p
  have hpre : ∀ e ∈ [Event.createDir, Event.openDataset, Event.computeOutputPath] ++
      bandLoopTrace nb,
      e ≠ Event.promptUser ∧ e ≠ Event.readUserInput ∧ e ≠ Event.saveImage := by
    intro e he
    rw [List.mem_append] at he
    rcases he with he | he
    · simp only [List.mem_cons, List.not_mem_nil, or_false] at he
      rcases he with rfl | rfl | rfl <;>
        exact ⟨fun hc => Event.noConfusion hc, fun hc => Event.noConfusion hc,
          fun hc => Event.noConfusion hc⟩
    · simp only [bandLoopTrace, List.mem_map] at he
      obtain ⟨i, _, rfl⟩ := he
      exact ⟨fun hc => Event.noConfusion hc, fun hc => Event.noConfusion hc,
        fun hc => Event.noConfusion hc⟩
  have hmid : ∀ b : ℕ, Event.bandProcessed b ∉ [Event.promptUser, Event.readUserInput] := by
    intro b hmem
    simp only [List.mem_cons, List.not_mem_nil, or_false] at hmem
    rcases hmem with h | h <;> exact Event.noConfusion h
  have htail : ∀ b : ℕ, Event.bandProcessed b ∉ [Event.saveImage] := by
    intro b hmem
    simp only [List.mem_cons, List.not_mem_nil, or_false] at hmem
    exact Event.noConfusion hmem
  have hmidsave : ∀ e ∈ [Event.promptUser, Event.readUserInput], e ≠ Event.saveImage := by
    intro e he
    simp only [List.mem_cons, List.not_mem_nil, or_false] at he
    rcases he with rfl | rfl <;> exact fun hc => Event.noConfusion hc
  have htailprompt : ∀ e ∈ [Event.saveImage],
      e ≠ Event.promptUser ∧ e ≠ Event.readUserInput := by
    intro e he
    simp only [List.mem_cons, List.not_mem_nil, or_false] at he
    subst he
    exact ⟨fun hc => Event.noConfusion hc, fun hc => Event.noConfusion hc⟩
  cases stem0 with
  | none =>
    refine ⟨[Event.createDir, Event.openDataset], [], [], rfl, ?_, ?_, ?_, ?_⟩
    · intro e he
      simp only [List.mem_cons, List.not_mem_nil, or_false] at he
      rcases he with rfl | rfl <;>
        exact ⟨fun hc => Event.noConfusion hc, fun hc => Event.noConfusion hc,
          fun hc => Event.noConfusion hc⟩
    · intro b
      exact ⟨List.not_mem_nil _, List.not_mem_nil _⟩
    · intro e he
      exact absurd he (List.not_mem_nil e)
    · intro e he
      exact absurd he (List.not_mem_nil e)
  | some stem =>
    cases hfo : (!fo && oe) with
    | true =>
      by_cases hans : stripNewlineSuffix ua = ['n'] ∨ stripNewlineSuffix ua = ['n', 'o']
      · refine ⟨[Event.createDir, Event.openDataset, Event.computeOutputPath] ++
          bandLoopTrace nb, [Event.promptUser, Event.readUserInput], [], ?_, hpre,
          fun b => ⟨hmid b, List.not_mem_nil _⟩, hmidsave,
          fun e he => absurd he (List.not_mem_nil e)⟩
        simp [exportDtmToExr, hfo, if_pos hans, List.append_assoc]
      · refine ⟨[Event.createDir, Event.openDataset, Event.computeOutputPath] ++
          bandLoopTrace nb, [Event.promptUser, Event.readUserInput], [Event.saveImage],
          ?_, hpre, fun b => ⟨hmid b, htail b⟩, hmidsave, htailprompt⟩
        simp [exportDtmToExr, hfo, if_neg hans, List.append_assoc]
    | false =>
      refine ⟨[Event.createDir, Event.openDataset, Event.computeOutputPath] ++
        bandLoopTrace nb, [], [Event.saveImage], ?_, hpre,
        fun b => ⟨List.not_mem_nil _, htail b⟩,
        fun e he => absurd he (List.not_mem_nil e), htailprompt⟩
      simp [exportDtmToExr, hfo, List.append_assoc]

/-- C10 (counterexample): for the input stem `a.tar` (an input file such
as `a.tar.gz`) and export directory `out`, the successful export returns
`out/a.exr` — `with_extension` also replaces the trailing `.tar` segment
of the stem itself — not the claimed join of the directory with the stem
plus `.exr`, which would be `out/a.tar.exr`. -/
theorem claim_C10_counterexample :
    (exportDtmToExr ⟨some ['a','.','t','a','r'], ['o','u','t'], 1, true, false, []⟩).2
      = Except.ok ['o','u','t','/','a','.','e','x','r'] ∧
    ['o','u','t','/','a','.','e','x','r']
      ≠ pathJoin ['o','u','t'] (['a','.','t','a','r'] ++ ['.','e','x','r']) := by
  constructor
  · rfl
  · intro hc
    simp [pathJoin] at hc

/-- C10 (amended): a successful export returns the output path computed
at the start — the export directory joined with the input's file stem and
the extension set to `exr` by `with_extension`, which also strips a final
dot-segment inside the stem itself; for an input path with no file stem,
the export fails before any band is processed. -/
theorem claim_C10_output_path (p : ExportParams) (stem out : List Char) :
    (p.fileStem = some stem → (exportDtmToExr p).2 = Except.ok out →
      out = outputImagePath p.exportDir stem) ∧
    (p.fileStem = none →
      exceptIsError (exportDtmToExr p).2 = true ∧
      ∀ b, Event.bandProcessed b ∉ (exportDtmToExr p).1) := by
  obtain ⟨stem0, dir, nb, fo, oe, ua⟩ := p
  constructor
  · intro hs hok
    simp only at hs
    subst hs
    simp only [exportDtmToExr] at hok
    split at hok
    · split at hok
      · exact Except.noConfusion hok
      · simp only [Except.ok.injEq] at hok
        exact hok.symm
    · simp only [Except.ok.injEq] at hok
      exact hok.symm
  · intro hn
    simp only at hn
    subst hn
    refine ⟨rfl, ?_⟩
    intro b hmem
    simp only [exportDtmToExr, List.mem_cons, List.not_mem_nil, or_false] at hmem
    rcases hmem with h | h <;> exact Event.noConfusion h

/-- Witness for the amended C10: a successful export with stem `dtm`
returns `out/dtm.exr`, and the export with no file stem fails with no
band processed. -/
theorem claim_C10_witness :
    ['o','u','t','/','d','t','m','.','e','x','r']
      = outputImagePath ['o','u','t'] ['d','t','m'] ∧
    exceptIsError (exportDtmToExr ⟨none, ['o','u','t'], 1, true, false, []⟩).2 = true ∧
    Event.bandProcessed 1 ∉ (exportDtmToExr ⟨none, ['o','u','t'], 1, true, false, []⟩).1 := by
  refine ⟨?_, ?_, ?_⟩
  · exact (claim_C10_output_path ⟨some ['d','t','m'], ['o','u','t'], 1, true, false, []⟩
      ['d','t','m'] ['o','u','t','/','d','t','m','.','e','x','r']).1 rfl rfl
  · exact ((claim_C10_output_path ⟨none, ['o','u','t'], 1, true, false, []⟩ [] []).2 rfl).1
  · exact ((claim_C10_output_path ⟨none, ['o','u','t'], 1, true, false, []⟩ [] []).2 rfl).2 1
